import Mathlib

/-!
Shallow embedding of the statement-routing core of the repository
(src/network/src/router.rs): the deferred-statement buffer
(DeferredStatements with push and get_deferred), the statement import
path of the Router (import_statement), the egress broadcaster
(broadcast_egress) and the success path of a dispatched validation
work unit (create_work).

Conventions of the embedding:
- Hash, SessionKey, ParaId are content hashes and identities; they are
  modelled as Nat, since only equality is used by the embedded code.
- A CandidateReceipt is abstracted to the hash its hash() method yields
  (hashing itself is external cryptography).
- The HashMap from candidate hash to queued statements is modelled as a
  total function from Hash to List, with the empty list standing for an
  absent key (push never stores an empty queue, so the two coincide).
- The HashSet of statement traces is modelled as a Finset.
- External collaborators (vote-aggregation table, knowledge tracker,
  gossip network) are parameters: the table is the predicate of known
  candidate hashes, and gossip or tracker calls are returned as data.
-/

namespace PolkadotRouter

abbrev Hash := Nat
abbrev SessionKey := Nat
abbrev ParaId := Nat

/-- A candidate receipt, abstracted to the hash of its descriptor. -/
structure CandidateReceipt where
  receiptHash : Hash
deriving DecidableEq, Repr

def CandidateReceipt.hash (c : CandidateReceipt) : Hash := c.receiptHash

/-- The three statement variants: Candidate carries the full receipt,
Valid and Invalid carry only the candidate hash. -/
inductive GenericStatement where
  | Candidate (c : CandidateReceipt)
  | Valid (h : Hash)
  | Invalid (h : Hash)
deriving DecidableEq, Repr

/-- A signed statement: statement content, sender identity, signature. -/
structure SignedStatement where
  statement : GenericStatement
  sender : SessionKey
  signature : Nat
deriving DecidableEq, Repr

/-- A unique trace for Valid and Invalid statements issued by a
validator: polarity, sender and candidate hash. -/
inductive StatementTrace where
  | Valid (k : SessionKey) (h : Hash)
  | Invalid (k : SessionKey) (h : Hash)
deriving DecidableEq, Repr

/-- The candidate hash a trace refers to. -/
def traceHash : StatementTrace → Hash
  | StatementTrace.Valid _ h => h
  | StatementTrace.Invalid _ h => h

/-- The (hash, trace) pair computed at the top of DeferredStatements
push: none for a Candidate statement, and for Valid or Invalid the
candidate hash together with the corresponding trace. -/
def statementTrace (s : SignedStatement) : Option (Hash × StatementTrace) :=
  match s.statement with
  | GenericStatement.Candidate _ => none
  | GenericStatement.Valid h => some (h, StatementTrace.Valid s.sender h)
  | GenericStatement.Invalid h => some (h, StatementTrace.Invalid s.sender h)

/-- Helper for deferring statements whose associated candidate is
unknown: a mapping from candidate hash to queued statements, plus the
set of traces currently represented in that mapping. -/
structure DeferredStatements where
  deferred : Hash → List SignedStatement
  known_traces : Finset StatementTrace

/-- The fresh buffer DeferredStatements::new() constructs. -/
def DeferredStatements.new : DeferredStatements :=
  { deferred := fun _ => [], known_traces := ∅ }

/-- DeferredStatements::push: a Candidate statement returns at once;
for Valid and Invalid the trace is inserted, and only when it was not
already present is the statement appended to that candidate's queue. -/
def DeferredStatements.push (d : DeferredStatements) (s : SignedStatement) :
    DeferredStatements :=
  match statementTrace s with
  | none => d
  | some (hash, trace) =>
    if trace ∈ d.known_traces then d
    else
      { deferred := fun h => if h = hash then d.deferred hash ++ [s] else d.deferred h
        known_traces := insert trace d.known_traces }

/-- DeferredStatements::get_deferred: remove the queue stored under the
given hash (empty if none), collect the trace of every non-Candidate
statement of that queue in order, remove those traces from the set, and
return the queue together with the collected traces. -/
def DeferredStatements.get_deferred (d : DeferredStatements) (hash : Hash) :
    (List SignedStatement × List StatementTrace) × DeferredStatements :=
  let q := d.deferred hash
  let traces := q.filterMap fun s => (statementTrace s).map Prod.snd
  ((q, traces),
   { deferred := fun h => if h = hash then [] else d.deferred h
     known_traces := traces.foldl (fun k t => k.erase t) d.known_traces })

/-- Router::import_statement, restricted to its effect on the deferred
buffer and the batch of statements handed to the vote-aggregation
table. The table is abstracted to the predicate of candidate hashes it
already knows (its with_candidate query). Result: the buffer afterward,
and some batch when statements were handed to the table (none when the
statement was deferred). The batch is the drained deferred statements
with the current statement inserted at position 0; draining happens
only in the Candidate branch of the source. -/
def import_statement (known : Hash → Bool) (d : DeferredStatements)
    (s : SignedStatement) : DeferredStatements × Option (List SignedStatement) :=
  let candidate_data : Option Hash :=
    match s.statement with
    | GenericStatement.Candidate c => some c.hash
    | GenericStatement.Valid h => if known h then some h else none
    | GenericStatement.Invalid h => if known h then some h else none
  match candidate_data with
  | none => (d.push s, none)
  | some c_hash =>
    match s.statement with
    | GenericStatement.Candidate _ =>
      let r := d.get_deferred c_hash
      (r.2, some (s :: r.1.1))
    | _ => (d, some [s])

/-- The note_statement calls the dispatch loop of import_statement
performs: the producers returned by the table are zipped with the batch
and, for every pair, note_statement receives the statement's sender and
content. -/
def noted_statements {α : Type} (producers : List (Option α))
    (statements : List SignedStatement) : List (SessionKey × GenericStatement) :=
  (producers.zip statements).map fun ps => (ps.2.sender, ps.2.statement)

/-- A single outgoing cross-candidate message: destination identity and
payload data. -/
structure TargetedMessage where
  target : ParaId
  data : Nat
deriving DecidableEq, Repr

/-- One element of an Outgoing batch: source identity (the field named
from in the source, a reserved word here) and its ordered messages. -/
structure Egress where
  source : ParaId
  messages : List TargetedMessage
deriving DecidableEq, Repr

/-- LinearGroupBy of the slice_group_by crate: split a list into
maximal runs of adjacent elements related by the predicate. -/
def linearGroupBy {α : Type} (eqv : α → α → Bool) : List α → List (List α)
  | [] => []
  | x :: xs =>
    match linearGroupBy eqv xs with
    | [] => [[x]]
    | [] :: gs => [x] :: [] :: gs
    | (y :: g) :: gs =>
      if eqv x y then (x :: y :: g) :: gs else [x] :: (y :: g) :: gs

/-- Modelled from the spec: the external helper
validation::incoming_message_topic derives the ingress gossip topic
from the parent context hash and the destination identity; it is
modelled as the pair itself, keeping the derivation explicit. -/
def incoming_message_topic (parent_hash : Hash) (target : ParaId) :
    Hash × ParaId :=
  (parent_hash, target)

/-- One gossip send of the egress broadcaster: the topic it is
published on, and the encoded (source identity, message payloads) pair
(the IngressPairRef the source encodes). -/
structure GossipSend where
  topic : Hash × ParaId
  source : ParaId
  payloads : List Nat
deriving DecidableEq, Repr

/-- Router::broadcast_egress: for each egress of the outgoing batch,
group consecutive messages sharing a target, skip empty groups, and
gossip one send per group on the topic derived from the parent hash and
the group's target, carrying the source and the group's payload data in
order. -/
def broadcast_egress (parent_hash : Hash) (outgoing : List Egress) :
    List GossipSend :=
  (outgoing.map fun egress =>
    (linearGroupBy (fun a b => a.target == b.target) egress.messages).filterMap
      fun group =>
        match group.head? with
        | none => none
        | some msg =>
          some { topic := incoming_message_topic parent_hash msg.target
                 source := egress.source
                 payloads := group.map fun m => m.data }).flatten

/-- A validated candidate result: its block data and optional extrinsic
side-output, both abstracted to Nat payloads. -/
structure Validated where
  block_data : Nat
  extrinsic : Option Nat
deriving DecidableEq, Repr

/-- Observable effects of the success continuation of create_work, in
program order: the knowledge tracker's note_candidate call, the table's
import_validated call, and the gossip_message publication. -/
inductive WorkEvent where
  | note_candidate (candidate_hash : Hash) (block_data : Option Nat)
      (extrinsic : Option Nat)
  | table_import_validated (v : Validated)
  | gossip_message (topic : Hash) (payload : List Nat)
deriving DecidableEq, Repr

def WorkEvent.isNoteCandidate : WorkEvent → Bool
  | WorkEvent.note_candidate _ _ _ => true
  | _ => false

def WorkEvent.isGossipMessage : WorkEvent → Bool
  | WorkEvent.gossip_message _ _ => true
  | _ => false

/-- The success path of create_work as the ordered list of its
effects: note_candidate with the candidate hash, its block data and
extrinsic; then the table turning the validated result into a signed
statement; then gossiping that statement's encoding on the attestation
topic. The external table call and the encoding are parameters. -/
def create_work_success (attestation_topic : Hash)
    (table_import_validated : Validated → SignedStatement)
    (encode : SignedStatement → List Nat)
    (candidate_hash : Hash) (validated : Validated) : List WorkEvent :=
  [WorkEvent.note_candidate candidate_hash (some validated.block_data)
     validated.extrinsic,
   WorkEvent.table_import_validated validated,
   WorkEvent.gossip_message attestation_topic
     (encode (table_import_validated validated))]

/-- Buffer states reachable from the fresh buffer by any sequence of
push and get_deferred operations. -/
inductive Reachable : DeferredStatements → Prop where
  | new : Reachable DeferredStatements.new
  | push (d : DeferredStatements) (s : SignedStatement) :
      Reachable d → Reachable (d.push s)
  | drain (d : DeferredStatements) (h : Hash) :
      Reachable d → Reachable (d.get_deferred h).2

/-- A statement carries exactly the given trace (same sender, candidate
hash and polarity). -/
def hasTrace (t : StatementTrace) (s : SignedStatement) : Prop :=
  (statementTrace s).map Prod.snd = some t

instance (t : StatementTrace) (s : SignedStatement) : Decidable (hasTrace t s) :=
  inferInstanceAs (Decidable (_ = _))

/-! ### Helper lemmas about the deferred buffer -/

theorem foldl_erase_mem (ts : List StatementTrace) (k : Finset StatementTrace)
    (t : StatementTrace) :
    t ∈ ts.foldl (fun k x => k.erase x) k ↔ t ∈ k ∧ t ∉ ts := by
  induction ts generalizing k with
  | nil => simp
  | cons x xs ih =>
    simp only [List.foldl_cons, ih, Finset.mem_erase, List.mem_cons]
    constructor
    · rintro ⟨⟨hne, hk⟩, hxs⟩
      exact ⟨hk, by rintro (rfl | h) <;> [exact hne rfl; exact hxs h]⟩
    · rintro ⟨hk, hnx⟩
      exact ⟨⟨fun hEq => hnx (Or.inl hEq), hk⟩, fun h => hnx (Or.inr h)⟩

theorem statementTrace_hash (s : SignedStatement) (h : Hash) (t : StatementTrace)
    (hs : statementTrace s = some (h, t)) : traceHash t = h := by
  cases s with
  | mk st sender sig =>
    cases st <;> simp [statementTrace] at hs <;>
      simp [← hs.2, traceHash, hs.1]

theorem push_of_fresh (d : DeferredStatements) (s : SignedStatement)
    (h : Hash) (t : StatementTrace) (hs : statementTrace s = some (h, t))
    (ht : t ∉ d.known_traces) :
    (∀ x, (d.push s).deferred x = if x = h then d.deferred h ++ [s] else d.deferred x)
      ∧ (d.push s).known_traces = insert t d.known_traces := by
  simp [DeferredStatements.push, hs, ht]

theorem push_of_stale (d : DeferredStatements) (s : SignedStatement)
    (h : Hash) (t : StatementTrace) (hs : statementTrace s = some (h, t))
    (ht : t ∈ d.known_traces) : d.push s = d := by
  simp [DeferredStatements.push, hs, ht]

theorem get_deferred_fst (d : DeferredStatements) (h : Hash) :
    (d.get_deferred h).1 =
      (d.deferred h, (d.deferred h).filterMap fun s => (statementTrace s).map Prod.snd) :=
  rfl

theorem get_deferred_deferred (d : DeferredStatements) (h x : Hash) :
    ((d.get_deferred h).2).deferred x = if x = h then [] else d.deferred x :=
  rfl

theorem get_deferred_traces_mem (d : DeferredStatements) (h : Hash)
    (t : StatementTrace) :
    t ∈ ((d.get_deferred h).2).known_traces ↔
      t ∈ d.known_traces ∧ t ∉ (d.get_deferred h).1.2 := by
  exact foldl_erase_mem _ _ _

/-! ### The buffer invariant and its preservation -/

/-- The invariant maintained by the deferred buffer: every queued
statement is a non-Candidate statement stored under its own candidate
hash, traces are pairwise distinct within a queue, and a trace is in
the set exactly when a statement carrying it sits in the queue of its
candidate hash. -/
def Inv (d : DeferredStatements) : Prop :=
  (∀ h s, s ∈ d.deferred h → ∃ t, statementTrace s = some (h, t)) ∧
  (∀ h, (d.deferred h).Pairwise fun a b => statementTrace a ≠ statementTrace b) ∧
  (∀ t, t ∈ d.known_traces ↔ ∃ s ∈ d.deferred (traceHash t), hasTrace t s)

theorem inv_new : Inv DeferredStatements.new := by
  refine ⟨?_, ?_, ?_⟩ <;> simp [DeferredStatements.new]

theorem inv_push (d : DeferredStatements) (s : SignedStatement) (hd : Inv d) :
    Inv (d.push s) := by
  obtain ⟨keyed, nodup, iff_tr⟩ := hd
  rcases hst : statementTrace s with _ | ⟨h, t⟩
  · simpa [DeferredStatements.push, hst] using ⟨keyed, nodup, iff_tr⟩
  by_cases htm : t ∈ d.known_traces
  · rw [push_of_stale d s h t hst htm]
    exact ⟨keyed, nodup, iff_tr⟩
  obtain ⟨hdef, hkn⟩ := push_of_fresh d s h t hst htm
  have hmemq : ∀ h' s', s' ∈ (d.push s).deferred h' ↔
      (s' ∈ d.deferred h' ∨ (h' = h ∧ s' = s)) := by
    intro h' s'
    rw [hdef h']
    by_cases hh : h' = h
    · subst hh
      rw [if_pos rfl, List.mem_append, List.mem_singleton]
      tauto
    · rw [if_neg hh]
      tauto
  have hfreshq : ∀ s', s' ∈ d.deferred h → statementTrace s' ≠ some (h, t) := by
    intro s' hs' hEq
    refine htm ((iff_tr t).mpr ⟨s', ?_, ?_⟩)
    · rw [statementTrace_hash s' h t hEq]
      exact hs'
    · simp [hasTrace, hEq]
  refine ⟨?_, ?_, ?_⟩
  · intro h' s' hs'
    rw [hmemq h' s'] at hs'
    rcases hs' with hs' | ⟨hh, hss⟩
    · exact keyed h' s' hs'
    · subst hh; subst hss
      exact ⟨t, hst⟩
  · intro h'
    rw [hdef h']
    by_cases hh : h' = h
    · subst hh
      rw [if_pos rfl, List.pairwise_append]
      refine ⟨nodup h', by simp, ?_⟩
      intro a ha b hb
      simp only [List.mem_singleton] at hb
      subst hb
      rw [hst]
      exact hfreshq a ha
    · rw [if_neg hh]
      exact nodup h'
  · intro t'
    rw [hkn, Finset.mem_insert]
    constructor
    · rintro (hEq | ht')
      · subst hEq
        refine ⟨s, ?_, ?_⟩
        · rw [hmemq _ s]
          exact Or.inr ⟨statementTrace_hash s h t' hst, rfl⟩
        · simp [hasTrace, hst]
      · obtain ⟨s', hs', hts'⟩ := (iff_tr t').mp ht'
        exact ⟨s', (hmemq _ s').mpr (Or.inl hs'), hts'⟩
    · rintro ⟨s', hs', hts'⟩
      rw [hmemq _ s'] at hs'
      rcases hs' with hs' | ⟨hh, hss⟩
      · exact Or.inr ((iff_tr t').mpr ⟨s', hs', hts'⟩)
      · subst hss
        left
        have h2 : some t = some t' := by simpa [hasTrace, hst] using hts'
        injection h2 with h3
        exact h3.symm

theorem inv_drain (d : DeferredStatements) (h : Hash) (hd : Inv d) :
    Inv (d.get_deferred h).2 := by
  obtain ⟨keyed, nodup, iff_tr⟩ := hd
  refine ⟨?_, ?_, ?_⟩
  · intro h' s' hs'
    rw [get_deferred_deferred] at hs'
    by_cases hh : h' = h
    · simp [if_pos hh] at hs'
    · rw [if_neg hh] at hs'
      exact keyed h' s' hs'
  · intro h'
    rw [get_deferred_deferred]
    by_cases hh : h' = h
    · simp [if_pos hh]
    · rw [if_neg hh]
      exact nodup h'
  · intro t
    rw [get_deferred_traces_mem, get_deferred_deferred, get_deferred_fst]
    by_cases hth : traceHash t = h
    · rw [hth, if_pos rfl]
      simp only [List.mem_nil_iff, false_and, exists_false, iff_false, not_and,
        not_not]
      intro htk
      obtain ⟨s', hs', hts'⟩ := (iff_tr t).mp htk
      rw [hth] at hs'
      simp only [List.mem_filterMap]
      exact ⟨s', hs', by simpa [hasTrace] using hts'⟩
    · rw [if_neg hth]
      rw [iff_tr t]
      constructor
      · rintro ⟨⟨s', hs', hts'⟩, _⟩
        exact ⟨s', hs', hts'⟩
      · rintro ⟨s', hs', hts'⟩
        refine ⟨⟨s', hs', hts'⟩, ?_⟩
        simp only [List.mem_filterMap]
        rintro ⟨s'', hs'', hts''⟩
        obtain ⟨t'', ht''⟩ := keyed h s'' hs''
        rw [ht''] at hts''
        have h2 : some t'' = some t := by simpa using hts''
        injection h2 with h3
        subst h3
        exact hth (statementTrace_hash s'' h t'' ht'')

theorem reachable_inv (d : DeferredStatements) (hd : Reachable d) : Inv d := by
  induction hd with
  | new => exact inv_new
  | push d s _ ih => exact inv_push d s ih
  | drain d h _ ih => exact inv_drain d h ih

/-- Pushing a list of Valid or Invalid statements, all about the same
candidate hash and with pairwise distinct traces none of which is
already known, appends them to that candidate's queue in order. -/
theorem foldl_push_deferred (arrivals : List SignedStatement) (h : Hash)
    (d : DeferredStatements)
    (hall : ∀ a ∈ arrivals, ∃ t, statementTrace a = some (h, t))
    (hpw : arrivals.Pairwise fun a b => statementTrace a ≠ statementTrace b)
    (hfresh : ∀ a ∈ arrivals, ∀ t, statementTrace a = some (h, t) →
      t ∉ d.known_traces) :
    (List.foldl DeferredStatements.push d arrivals).deferred h =
      d.deferred h ++ arrivals := by
  induction arrivals generalizing d with
  | nil => simp
  | cons a rest ih =>
    obtain ⟨t, hta⟩ := hall a (List.mem_cons_self a rest)
    have htf : t ∉ d.known_traces := hfresh a (List.mem_cons_self a rest) t hta
    obtain ⟨hdef, hkn⟩ := push_of_fresh d a h t hta htf
    have hrest := ih (d.push a)
      (fun b hb => hall b (List.mem_cons_of_mem a hb))
      (List.Pairwise.of_cons hpw)
      (fun b hb tb htb => by
        rw [hkn, Finset.mem_insert]
        rintro (hEq | hmem)
        · subst hEq
          have hne := (List.pairwise_cons.mp hpw).1 b hb
          rw [hta, htb] at hne
          exact hne rfl
        · exact hfresh b (List.mem_cons_of_mem a hb) tb htb hmem)
    rw [List.foldl_cons, hrest, hdef h, if_pos rfl, List.append_assoc,
      List.singleton_append]

/-- Mapping a function of the second component over a zip of
equal-length lists is mapping it over the second list. -/
theorem zip_map_snd {α β γ : Type} (f : β → γ) (ps : List α) (ss : List β)
    (hlen : ps.length = ss.length) :
    (ps.zip ss).map (fun x => f x.2) = ss.map f := by
  induction ps generalizing ss with
  | nil =>
    cases ss with
    | nil => simp
    | cons b bs => simp at hlen
  | cons p ps ih =>
    cases ss with
    | nil => simp at hlen
    | cons b bs =>
      simp only [List.zip_cons_cons, List.map_cons]
      rw [ih bs (by simpa using hlen)]

/-! ### Claim theorems -/

/-- C3: in any reachable buffer whose dedup set does not yet hold the
trace, pushing a second Valid or Invalid statement with the same
(sender, candidate identity, polarity) trace before any drain leaves
the buffer unchanged, and exactly one statement with that trace remains
queued for that candidate. -/
theorem c3_dedup_idempotent (d : DeferredStatements) (s1 s2 : SignedStatement)
    (h : Hash) (t : StatementTrace) (hr : Reachable d)
    (hs1 : statementTrace s1 = some (h, t))
    (hs2 : statementTrace s2 = some (h, t))
    (ht : t ∉ d.known_traces) :
    (d.push s1).push s2 = d.push s1 ∧
      (((d.push s1).push s2).deferred h).countP
        (fun s' => decide (hasTrace t s')) = 1 := by
  obtain ⟨hdef, hkn⟩ := push_of_fresh d s1 h t hs1 ht
  have heq : (d.push s1).push s2 = d.push s1 :=
    push_of_stale (d.push s1) s2 h t hs2
      (by rw [hkn]; exact Finset.mem_insert_self t _)
  refine ⟨heq, ?_⟩
  rw [heq, hdef h, if_pos rfl, List.countP_append]
  have h0 : (d.deferred h).countP (fun s' => decide (hasTrace t s')) = 0 := by
    rw [List.countP_eq_zero]
    intro a ha
    simp only [decide_eq_true_eq]
    intro hta
    obtain ⟨keyed, _, iff_tr⟩ := reachable_inv d hr
    obtain ⟨ta, htaa⟩ := keyed h a ha
    have h2 : some ta = some t := by simpa [hasTrace, htaa] using hta
    injection h2 with h3
    rw [h3] at htaa
    refine ht ((iff_tr t).mpr ⟨a, ?_, hta⟩)
    rw [statementTrace_hash a h t htaa]
    exact ha
  rw [h0]
  simp [List.countP_cons, hasTrace, hs1]

/-- C3 witness, at the fresh buffer, candidate 5 and sender 1: the
second push of the same trace (with a different signature) is dropped
and one statement remains queued. -/
theorem c3_witness :
    ((DeferredStatements.new.push ⟨GenericStatement.Valid 5, 1, 0⟩).push
        ⟨GenericStatement.Valid 5, 1, 9⟩ =
      DeferredStatements.new.push ⟨GenericStatement.Valid 5, 1, 0⟩) ∧
    ((((DeferredStatements.new.push ⟨GenericStatement.Valid 5, 1, 0⟩).push
        ⟨GenericStatement.Valid 5, 1, 9⟩).deferred 5).countP
        (fun s' => decide (hasTrace (StatementTrace.Valid 1 5) s')) = 1) :=
  c3_dedup_idempotent DeferredStatements.new ⟨GenericStatement.Valid 5, 1, 0⟩
    ⟨GenericStatement.Valid 5, 1, 9⟩ 5 (StatementTrace.Valid 1 5)
    Reachable.new rfl rfl (by simp [DeferredStatements.new])

/-- C4: in every buffer state reachable from the fresh buffer by push
and get_deferred operations, a trace is in the dedup set if and only if
a Valid or Invalid statement carrying that sender, candidate identity
and polarity is present in some queue of the mapping. -/
theorem c4_trace_invariant (d : DeferredStatements) (hr : Reachable d)
    (t : StatementTrace) :
    t ∈ d.known_traces ↔ ∃ h s, s ∈ d.deferred h ∧ hasTrace t s := by
  obtain ⟨keyed, _, iff_tr⟩ := reachable_inv d hr
  rw [iff_tr t]
  constructor
  · rintro ⟨s, hs, hts⟩
    exact ⟨traceHash t, s, hs, hts⟩
  · rintro ⟨h, s, hs, hts⟩
    obtain ⟨t', ht'⟩ := keyed h s hs
    have h2 : some t' = some t := by simpa [hasTrace, ht'] using hts
    injection h2 with h3
    rw [h3] at ht'
    refine ⟨s, ?_, hts⟩
    rw [statementTrace_hash s h t ht']
    exact hs

/-- C4 witness at the reachable buffer holding one deferred Valid
statement for candidate 5. -/
theorem c4_witness :
    StatementTrace.Valid 1 5 ∈
        (DeferredStatements.new.push
          ⟨GenericStatement.Valid 5, 1, 0⟩).known_traces ↔
      ∃ h s, s ∈ (DeferredStatements.new.push
          ⟨GenericStatement.Valid 5, 1, 0⟩).deferred h ∧
        hasTrace (StatementTrace.Valid 1 5) s :=
  c4_trace_invariant _
    (Reachable.push _ _ Reachable.new) (StatementTrace.Valid 1 5)

/-- C5: after draining a candidate identity, a second drain returns an
empty statement list and empty trace list, and a push of a statement
whose trace was returned by the first drain is accepted again: the
statement is queued for that candidate. -/
theorem c5_drain_reset (d : DeferredStatements) (h : Hash)
    (s : SignedStatement) (t : StatementTrace)
    (hs : statementTrace s = some (h, t))
    (ht : t ∈ (d.get_deferred h).1.2) :
    ((d.get_deferred h).2.get_deferred h).1 = ([], []) ∧
      ((d.get_deferred h).2.push s).deferred h = [s] := by
  constructor
  · rw [get_deferred_fst]
    simp [get_deferred_deferred]
  · have hfree : t ∉ ((d.get_deferred h).2).known_traces := by
      rw [get_deferred_traces_mem]
      tauto
    obtain ⟨hdef, _⟩ := push_of_fresh _ s h t hs hfree
    rw [hdef h, if_pos rfl, get_deferred_deferred, if_pos rfl,
      List.nil_append]

/-- C5 witness: drain candidate 5 out of the buffer holding its one
deferred statement, then drain again and re-push the same statement. -/
theorem c5_witness :
    (((DeferredStatements.new.push
        ⟨GenericStatement.Valid 5, 1, 0⟩).get_deferred 5).2.get_deferred 5).1 =
      ([], []) ∧
    ((((DeferredStatements.new.push
        ⟨GenericStatement.Valid 5, 1, 0⟩).get_deferred 5).2).push
      ⟨GenericStatement.Valid 5, 1, 0⟩).deferred 5 =
      [⟨GenericStatement.Valid 5, 1, 0⟩] :=
  c5_drain_reset _ 5 ⟨GenericStatement.Valid 5, 1, 0⟩
    (StatementTrace.Valid 1 5) rfl (by decide)

/-- C9: pushing a Candidate-variant statement into the Deferred
Statement Buffer is a no-op: the queue mapping and the trace set are
exactly as before the push. -/
theorem c9_push_candidate_noop (d : DeferredStatements) (c : CandidateReceipt)
    (k : SessionKey) (sig : Nat) :
    DeferredStatements.push d ⟨GenericStatement.Candidate c, k, sig⟩ = d :=
  rfl

/-- C10: draining one candidate identity leaves every other candidate's
queue unchanged, removes from the dedup set exactly the traces of the
statements that were queued under the drained identity, and keeps every
trace whose candidate identity is a different hash. -/
theorem c10_drain_frame (d : DeferredStatements) (h h' : Hash)
    (t : StatementTrace) (hr : Reachable d) (hne : h' ≠ h) :
    ((d.get_deferred h).2).deferred h' = d.deferred h' ∧
    (t ∈ ((d.get_deferred h).2).known_traces ↔
      t ∈ d.known_traces ∧ t ∉ (d.get_deferred h).1.2) ∧
    (t ∈ d.known_traces → traceHash t = h' →
      t ∈ ((d.get_deferred h).2).known_traces) := by
  refine ⟨by rw [get_deferred_deferred, if_neg hne],
    get_deferred_traces_mem d h t, ?_⟩
  intro htk hth
  rw [get_deferred_traces_mem]
  refine ⟨htk, ?_⟩
  obtain ⟨keyed, _, iff_tr⟩ := reachable_inv d hr
  simp only [get_deferred_fst, List.mem_filterMap]
  rintro ⟨s'', hs'', hts''⟩
  obtain ⟨t'', ht''⟩ := keyed h s'' hs''
  rw [ht''] at hts''
  have h2 : some t'' = some t := by simpa using hts''
  injection h2 with h3
  rw [h3] at ht''
  rw [statementTrace_hash s'' h t ht''] at hth
  exact hne hth.symm

/-- C10 witness: with statements deferred for candidates 5 and 6,
draining candidate 5 keeps candidate 6's queue and trace. -/
theorem c10_witness :
    (((DeferredStatements.new.push ⟨GenericStatement.Valid 5, 1, 0⟩).push
        ⟨GenericStatement.Valid 6, 2, 0⟩).get_deferred 5).2.deferred 6 =
      ((DeferredStatements.new.push ⟨GenericStatement.Valid 5, 1, 0⟩).push
        ⟨GenericStatement.Valid 6, 2, 0⟩).deferred 6 ∧
    (StatementTrace.Valid 2 6 ∈
        ((((DeferredStatements.new.push ⟨GenericStatement.Valid 5, 1, 0⟩).push
          ⟨GenericStatement.Valid 6, 2, 0⟩).get_deferred 5).2).known_traces ↔
      StatementTrace.Valid 2 6 ∈
        ((DeferredStatements.new.push ⟨GenericStatement.Valid 5, 1, 0⟩).push
          ⟨GenericStatement.Valid 6, 2, 0⟩).known_traces ∧
      StatementTrace.Valid 2 6 ∉
        (((DeferredStatements.new.push ⟨GenericStatement.Valid 5, 1, 0⟩).push
          ⟨GenericStatement.Valid 6, 2, 0⟩).get_deferred 5).1.2) ∧
    (StatementTrace.Valid 2 6 ∈
        ((DeferredStatements.new.push ⟨GenericStatement.Valid 5, 1, 0⟩).push
          ⟨GenericStatement.Valid 6, 2, 0⟩).known_traces →
      traceHash (StatementTrace.Valid 2 6) = 6 →
      StatementTrace.Valid 2 6 ∈
        ((((DeferredStatements.new.push ⟨GenericStatement.Valid 5, 1, 0⟩).push
          ⟨GenericStatement.Valid 6, 2, 0⟩).get_deferred 5).2).known_traces) :=
  c10_drain_frame _ 5 6 (StatementTrace.Valid 2 6)
    (Reachable.push _ _ (Reachable.push _ _ Reachable.new)) (by decide)

/-- C1 counterexample: with a Valid statement about candidate 5 already
deferred, importing another Valid statement about candidate 5 while the
table knows the candidate does NOT drain the deferred statement into
the batch, and the buffer keeps it: the claim that every import with a
known candidate drains and prepends fails here. -/
theorem c1_counterexample :
    ¬ ((import_statement (fun _ => true)
          (DeferredStatements.new.push ⟨GenericStatement.Valid 5, 1, 0⟩)
          ⟨GenericStatement.Valid 5, 2, 0⟩).2 =
        some (⟨GenericStatement.Valid 5, 2, 0⟩ ::
          (DeferredStatements.new.push
            ⟨GenericStatement.Valid 5, 1, 0⟩).deferred 5) ∧
       ((import_statement (fun _ => true)
          (DeferredStatements.new.push ⟨GenericStatement.Valid 5, 1, 0⟩)
          ⟨GenericStatement.Valid 5, 2, 0⟩).1).deferred 5 = []) := by
  decide

/-- C1 amended: the drain of previously deferred statements, with the
current statement prepended to the drained batch, happens exactly when
the current statement is a Candidate statement; for a Valid or Invalid
statement whose identity the table recognises, the batch handed to the
table is the singleton current statement and the buffer is left
untouched. -/
theorem c1_amended_drain_only_candidate (known : Hash → Bool)
    (d : DeferredStatements) (s : SignedStatement) :
    (∀ c, s.statement = GenericStatement.Candidate c →
      import_statement known d s =
        ((d.get_deferred c.hash).2,
         some (s :: (d.get_deferred c.hash).1.1))) ∧
    (∀ h, (s.statement = GenericStatement.Valid h ∨
           s.statement = GenericStatement.Invalid h) → known h = true →
      import_statement known d s = (d, some [s])) := by
  obtain ⟨st, sender, sig⟩ := s
  constructor
  · rintro c hc
    simp only at hc
    subst hc
    rfl
  · rintro h (hv | hv) hk
    · simp only at hv
      subst hv
      simp [import_statement, hk]
    · simp only at hv
      subst hv
      simp [import_statement, hk]

/-- C1 amended witness: importing a Candidate statement for candidate 5
drains and prepends; importing a Valid statement for known candidate 6
hands over the singleton batch with the buffer untouched. -/
theorem c1_amended_witness :
    (import_statement (fun _ => true) DeferredStatements.new
        ⟨GenericStatement.Candidate ⟨5⟩, 1, 0⟩ =
      ((DeferredStatements.new.get_deferred
          (CandidateReceipt.hash ⟨5⟩)).2,
       some (⟨GenericStatement.Candidate ⟨5⟩, 1, 0⟩ ::
         (DeferredStatements.new.get_deferred
           (CandidateReceipt.hash ⟨5⟩)).1.1))) ∧
    (import_statement (fun _ => true) DeferredStatements.new
        ⟨GenericStatement.Valid 6, 1, 0⟩ =
      (DeferredStatements.new, some [⟨GenericStatement.Valid 6, 1, 0⟩])) :=
  ⟨(c1_amended_drain_only_candidate (fun _ => true) DeferredStatements.new
      ⟨GenericStatement.Candidate ⟨5⟩, 1, 0⟩).1 ⟨5⟩ rfl,
   (c1_amended_drain_only_candidate (fun _ => true) DeferredStatements.new
      ⟨GenericStatement.Valid 6, 1, 0⟩).2 6 (Or.inl rfl) rfl⟩

/-- C2: for a candidate with N statements deferred in the buffer (all
about that candidate, with pairwise distinct traces, pushed into the
fresh buffer in arrival order), importing the candidate's defining
Candidate statement hands the table the batch with the defining
statement at position 0 followed by the N deferred statements in their
arrival order. -/
theorem c2_causal_order (known : Hash → Bool)
    (arrivals : List SignedStatement) (h : Hash) (c : CandidateReceipt)
    (s : SignedStatement)
    (hcs : s.statement = GenericStatement.Candidate c) (hch : c.hash = h)
    (hall : ∀ a ∈ arrivals, ∃ t, statementTrace a = some (h, t))
    (hpw : arrivals.Pairwise fun a b => statementTrace a ≠ statementTrace b) :
    (import_statement known
        (List.foldl DeferredStatements.push DeferredStatements.new arrivals)
        s).2 = some (s :: arrivals) := by
  have hq := foldl_push_deferred arrivals h DeferredStatements.new hall hpw
    (fun a _ t _ => by simp [DeferredStatements.new])
  obtain ⟨st, sender, sig⟩ := s
  simp only at hcs
  subst hcs
  show some (_ :: ((List.foldl DeferredStatements.push
    DeferredStatements.new arrivals).get_deferred c.hash).1.1) = _
  rw [get_deferred_fst, hch, hq]
  simp [DeferredStatements.new]

/-- C2 witness: two deferred votes about candidate 5 followed by its
defining statement produce the batch with the defining statement first
and the two votes in arrival order. -/
theorem c2_witness :
    (import_statement (fun _ => true)
        (List.foldl DeferredStatements.push DeferredStatements.new
          [⟨GenericStatement.Valid 5, 1, 0⟩,
           ⟨GenericStatement.Invalid 5, 2, 0⟩])
        ⟨GenericStatement.Candidate ⟨5⟩, 3, 0⟩).2 =
      some [⟨GenericStatement.Candidate ⟨5⟩, 3, 0⟩,
        ⟨GenericStatement.Valid 5, 1, 0⟩,
        ⟨GenericStatement.Invalid 5, 2, 0⟩] :=
  c2_causal_order (fun _ => true)
    [⟨GenericStatement.Valid 5, 1, 0⟩, ⟨GenericStatement.Invalid 5, 2, 0⟩]
    5 ⟨5⟩ ⟨GenericStatement.Candidate ⟨5⟩, 3, 0⟩ rfl rfl
    (by
      intro a ha
      simp only [List.mem_cons, List.not_mem_nil, or_false] at ha
      rcases ha with rfl | rfl
      · exact ⟨StatementTrace.Valid 1 5, rfl⟩
      · exact ⟨StatementTrace.Invalid 2 5, rfl⟩)
    (by decide)

/-- C6: for an outgoing batch whose message sequence is
(T1,a),(T1,b),(T2,c),(T1,d) with distinct targets T1 and T2, the
broadcaster performs exactly three gossip sends, (T1,[a,b]), (T2,[c])
and (T1,[d]), each on the topic derived from the round context and the
target, and never merges the two non-adjacent T1 groups. -/
theorem c6_egress_adjacent_grouping (parent : Hash) (S T1 T2 : ParaId)
    (a b c d : Nat) (hne : T1 ≠ T2) :
    broadcast_egress parent [⟨S, [⟨T1, a⟩, ⟨T1, b⟩, ⟨T2, c⟩, ⟨T1, d⟩]⟩] =
      [⟨incoming_message_topic parent T1, S, [a, b]⟩,
       ⟨incoming_message_topic parent T2, S, [c]⟩,
       ⟨incoming_message_topic parent T1, S, [d]⟩] := by
  have h12 : (T1 == T2) = false := by simpa using hne
  have h21 : (T2 == T1) = false := by simpa using (Ne.symm hne)
  simp [broadcast_egress, linearGroupBy, h12, h21]

/-- C6 witness with targets 1 and 2. -/
theorem c6_witness :
    broadcast_egress 9 [⟨7, [⟨1, 10⟩, ⟨1, 11⟩, ⟨2, 12⟩, ⟨1, 13⟩]⟩] =
      [⟨incoming_message_topic 9 1, 7, [10, 11]⟩,
       ⟨incoming_message_topic 9 2, 7, [12]⟩,
       ⟨incoming_message_topic 9 1, 7, [13]⟩] :=
  c6_egress_adjacent_grouping 9 7 1 2 10 11 12 13 (by decide)

/-- C7: for a batch handed to the table by import_statement, with the
table answering one producer option per statement, note_statement is
called exactly once per statement of the batch, with that statement's
sender and content, regardless of which statements produced work. -/
theorem c7_note_statement_once {α : Type} (known : Hash → Bool)
    (d : DeferredStatements) (s : SignedStatement)
    (batch : List SignedStatement) (producers : List (Option α))
    (hb : (import_statement known d s).2 = some batch)
    (hlen : producers.length = batch.length) :
    noted_statements producers batch =
      batch.map fun st => (st.sender, st.statement) := by
  have hz := zip_map_snd (fun st : SignedStatement => (st.sender, st.statement))
    producers batch hlen
  simpa [noted_statements] using hz

/-- C7 witness: a singleton batch from an import with a known
candidate, with the table returning no producer for it. -/
theorem c7_witness :
    noted_statements ([none] : List (Option Unit))
        [⟨GenericStatement.Valid 5, 2, 0⟩] =
      [(2, GenericStatement.Valid 5)] :=
  c7_note_statement_once (fun _ => true) DeferredStatements.new
    ⟨GenericStatement.Valid 5, 2, 0⟩ [⟨GenericStatement.Valid 5, 2, 0⟩]
    [none] rfl rfl

/-- C8: in the success path of a dispatched validation work unit, the
note_candidate recording of the validated payload and side-output
occurs strictly before the gossip of the resulting signed statement on
the attestation topic. -/
theorem c8_note_before_gossip (topic : Hash)
    (tiv : Validated → SignedStatement) (encode : SignedStatement → List Nat)
    (ch : Hash) (v : Validated) (i j : Nat) (e1 e2 : WorkEvent)
    (h1 : (create_work_success topic tiv encode ch v).get? i = some e1)
    (h2 : (create_work_success topic tiv encode ch v).get? j = some e2)
    (hn : e1.isNoteCandidate = true) (hg : e2.isGossipMessage = true) :
    i < j := by
  have hi : i = 0 := by
    rcases i with _ | _ | _ | i
    · rfl
    · rw [show (create_work_success topic tiv encode ch v).get? 1 =
          some (WorkEvent.table_import_validated v) from rfl] at h1
      injection h1 with h1
      rw [← h1] at hn
      simp [WorkEvent.isNoteCandidate] at hn
    · rw [show (create_work_success topic tiv encode ch v).get? 2 =
          some (WorkEvent.gossip_message topic (encode (tiv v))) from rfl] at h1
      injection h1 with h1
      rw [← h1] at hn
      simp [WorkEvent.isNoteCandidate] at hn
    · rw [show (create_work_success topic tiv encode ch v).get? (i + 3) =
          none from rfl] at h1
      exact absurd h1 (by simp)
  have hj : j = 2 := by
    rcases j with _ | _ | _ | j
    · rw [show (create_work_success topic tiv encode ch v).get? 0 =
          some (WorkEvent.note_candidate ch (some v.block_data) v.extrinsic)
          from rfl] at h2
      injection h2 with h2
      rw [← h2] at hg
      simp [WorkEvent.isGossipMessage] at hg
    · rw [show (create_work_success topic tiv encode ch v).get? 1 =
          some (WorkEvent.table_import_validated v) from rfl] at h2
      injection h2 with h2
      rw [← h2] at hg
      simp [WorkEvent.isGossipMessage] at hg
    · rfl
    · rw [show (create_work_success topic tiv encode ch v).get? (j + 3) =
          none from rfl] at h2
      exact absurd h2 (by simp)
  omega

/-- C8 witness: in a concrete success trace, the note_candidate event
sits at position 0 and the gossip event at position 2, and 0 is less
than 2. -/
theorem c8_witness :
    (create_work_success 7 (fun _ => ⟨GenericStatement.Valid 5, 1, 0⟩)
        (fun _ => []) 5 ⟨0, none⟩).get? 0 =
      some (WorkEvent.note_candidate 5 (some 0) none) ∧
    (create_work_success 7 (fun _ => ⟨GenericStatement.Valid 5, 1, 0⟩)
        (fun _ => []) 5 ⟨0, none⟩).get? 2 =
      some (WorkEvent.gossip_message 7 []) ∧
    (0 : Nat) < 2 :=
  ⟨rfl, rfl,
   c8_note_before_gossip 7 (fun _ => ⟨GenericStatement.Valid 5, 1, 0⟩)
     (fun _ => []) 5 ⟨0, none⟩ 0 2
     (WorkEvent.note_candidate 5 (some 0) none)
     (WorkEvent.gossip_message 7 []) rfl rfl rfl rfl⟩

end PolkadotRouter
